import Mathlib

/-!
Verification development for the twintest branch-extraction and filtering
pipeline. The Go sources are embedded shallowly:

* `Branch`, `FuncInfo`, `StructInfo` mirror the data model of part_002.
* The memoized method `Branch.HasReturn` mutates the receiver in place in Go;
  here it returns the boolean result together with the updated tree.
* Go code that can panic (nil-pointer dereferences, slice bounds) is embedded
  with an `Option` result, `none` standing for the panic.
* File reading and go/parser are external collaborators; `ParseFile` therefore
  takes the parsed declaration list and raw source bytes as input.
-/

/-! Branch kind constants (Go: const block with iota + 1 in part_002). -/

def BranchIfHost : Nat := 1
def BranchIf : Nat := 2
def BranchElseIf : Nat := 3
def BranchElse : Nat := 4
def BranchFor : Nat := 5
def BranchRange : Nat := 6
def BranchSwitch : Nat := 7
def BranchTypeSwitch : Nat := 8
def BranchCase : Nat := 9
def BranchDefault : Nat := 10
def BranchSelect : Nat := 11
def BranchCommClause : Nat := 12
def BranchCommClauseDefault : Nat := 13
def BranchBlock : Nat := 14
def BranchReturn : Nat := 15

/-- Branch node (Go struct Branch: Type, Line, CodeLine, Children, hasReturn).
The Go field Type is called Typ here because Type is reserved in Lean. -/
inductive Branch : Type where
  | mk (Typ : Nat) (Line : Nat) (CodeLine : String) (Children : List Branch) (hasReturn : Bool)

def Branch.Typ : Branch → Nat
  | .mk t _ _ _ _ => t

def Branch.Line : Branch → Nat
  | .mk _ li _ _ _ => li

def Branch.CodeLine : Branch → String
  | .mk _ _ co _ _ => co

def Branch.Children : Branch → List Branch
  | .mk _ _ _ cs _ => cs

def Branch.hasReturnFlag : Branch → Bool
  | .mk _ _ _ _ h => h

/-- identity of a branch as far as the renderer cares: kind, line and excerpt. -/
def keyOf (b : Branch) : Nat × Nat × String := (b.Typ, b.Line, b.CodeLine)

mutual
/-- the boolean value a call of the Go method HasReturn returns on the current
tree state: the cached flag, or a recursive search through the children. -/
def hasReturnVal : Branch → Bool
  | .mk _ _ _ cs hr => hr || hasReturnValList cs

def hasReturnValList : List Branch → Bool
  | [] => false
  | c :: l => hasReturnVal c || hasReturnValList l
end

mutual
/-- the honest reachability predicate: this node or some descendant in the
current tree is a return branch (kind BranchReturn). -/
def reachRet : Branch → Bool
  | .mk t _ _ cs _ => (t == BranchReturn) || reachRetList cs

def reachRetList : List Branch → Bool
  | [] => false
  | c :: l => reachRet c || reachRetList l
end

mutual
/-- truthful flags: a set hasReturn flag is backed by a real return branch in
the subtree, and every return branch carries its flag (as at construction). -/
def honest : Branch → Bool
  | .mk t _ _ cs hr =>
    (!hr || (t == BranchReturn) || reachRetList cs) &&
    (!(t == BranchReturn) || hr) && honestList cs

def honestList : List Branch → Bool
  | [] => true
  | c :: l => honest c && honestList l
end

mutual
/-- shape of a correctly pruned tree: leaves are return branches with their
construction-time flag, interior nodes keep a return branch below them. -/
def prunedGood : Branch → Bool
  | .mk t _ _ cs hr =>
    (if cs.isEmpty then (t == BranchReturn) && hr else reachRetList cs) && prunedGoodList cs

def prunedGoodList : List Branch → Bool
  | [] => true
  | c :: l => prunedGood c && prunedGoodList l
end

mutual
/-- Go method HasReturn of part_002 (lines 462-473), memoization made explicit:
the returned pair is the boolean result together with the updated receiver
(the in-place flag promotion). -/
def Branch.HasReturn : Branch → Bool × Branch
  | .mk t li co cs hr =>
    if hr then (true, .mk t li co cs hr)
    else
      match hasReturnLoop cs with
      | (r, cs2) => (r, .mk t li co cs2 r)

/-- the loop over b.Children inside HasReturn: scans the children in order,
updating each scanned child in place, stopping at the first child that
reports true (the children after it stay untouched). -/
def hasReturnLoop : List Branch → Bool × List Branch
  | [] => (false, [])
  | c :: l =>
    match Branch.HasReturn c with
    | (true, c2) => (true, c2 :: l)
    | (false, c2) =>
      match hasReturnLoop l with
      | (r, l2) => (r, c2 :: l2)
end

mutual
/-- size measure on branch trees; flags do not contribute, so the promotions
performed by HasReturn preserve it. -/
def bsz : Branch → Nat
  | .mk _ _ _ cs _ => 1 + bszList cs

def bszList : List Branch → Nat
  | [] => 0
  | c :: l => 1 + bsz c + bszList l
end

mutual
/-- a HasReturn call only flips flags, so the size measure is unchanged. -/
def HasReturn_bsz : ∀ b : Branch, bsz (Branch.HasReturn b).2 = bsz b
  | .mk t li co cs hr => by
    have h := hasReturnLoop_bsz cs
    unfold Branch.HasReturn
    cases hr
    · cases hl : hasReturnLoop cs with
      | mk r cs2 =>
        rw [hl] at h
        simp [bsz, h]
    · simp [bsz]

def hasReturnLoop_bsz : ∀ l : List Branch, bszList (hasReturnLoop l).2 = bszList l
  | [] => by simp [hasReturnLoop, bszList]
  | c :: l => by
    have hc := HasReturn_bsz c
    have hl2 := hasReturnLoop_bsz l
    unfold hasReturnLoop
    cases h1 : Branch.HasReturn c with
    | mk r c2 =>
      rw [h1] at hc
      cases r
      · cases h2 : hasReturnLoop l with
        | mk r2 l2 =>
          rw [h2] at hl2
          simp [bszList, hc, hl2]
      · simp [bszList, hc]
end

mutual
/-- Go trimNoReturnBranch of main.go (lines 222-232): keeps exactly the
children whose HasReturn call reports true (as updated by that call) and
recursively prunes each kept child. -/
def trimNoReturnBranch : Branch → Branch
  | .mk t li co cs hr => .mk t li co (trimNoReturnChildren cs) hr
termination_by b => bsz b
decreasing_by simp [bsz]

def trimNoReturnChildren : List Branch → List Branch
  | [] => []
  | c :: l =>
    match h : Branch.HasReturn c with
    | (true, c2) => trimNoReturnBranch c2 :: trimNoReturnChildren l
    | (false, _) => trimNoReturnChildren l
termination_by l => bszList l
decreasing_by
  all_goals
    first
      | (simp only [bszList]; omega)
      | (have hb := HasReturn_bsz c; rw [h] at hb; simp at hb; simp only [bszList]; omega)
end

/-- n sits somewhere inside the tree rooted at b (b itself or a descendant). -/
inductive SubBranch : Branch → Branch → Prop where
  | refl (b : Branch) : SubBranch b b
  | sub (n c b : Branch) : SubBranch n c → c ∈ b.Children → SubBranch n b

/-- Go struct FuncInfo of part_002. -/
structure FuncInfo where
  Receiver : String
  Name : String
  IsExported : Bool
  Branches : List Branch

/-- Go struct StructInfo of part_002. -/
structure StructInfo where
  Name : String
  IsExported : Bool
  Methods : List FuncInfo

/-- the per-method body of Go trimByPaths: wrap the branches in a fresh root
(zero value except Children), trim it, take back the children. -/
def trimMethod (f : FuncInfo) : FuncInfo :=
  { f with Branches := (trimNoReturnBranch (Branch.mk 0 0 "" f.Branches false)).Children }

/-- Go trimByPaths of main.go (lines 201-220); the paths option is the global
flag threaded as a parameter. -/
def trimByPaths (pathsOpt : String) (gs : List StructInfo) : List StructInfo :=
  if !(pathsOpt == "return") then gs
  else gs.map (fun g => { g with Methods := g.Methods.map trimMethod })

/-- the loop of the func case of trimByScope: first group with empty name. -/
def firstNoName : List StructInfo → Option StructInfo
  | [] => none
  | g :: rest => if g.Name == "" then some g else firstNoName rest

/-- Go trimByScope of main.go (lines 179-199); the scope option is the global
flag threaded as a parameter.  With scope func the loop replaces the list by
the first empty-named group and breaks (no match leaves the list unchanged);
with scope struct the named groups are kept in order; otherwise identity. -/
def trimByScope (scopeOpt : String) (gs : List StructInfo) : List StructInfo :=
  match scopeOpt with
  | "func" =>
    match firstNoName gs with
    | some g => [g]
    | none => gs
  | "struct" => gs.filter (fun g => !(g.Name == ""))
  | _ => gs

/-- membership in the map m of Go trimConstructor: m holds New+name and
new+name for every named group of the list. -/
def ctorNames (gs : List StructInfo) (nm : String) : Bool :=
  gs.any (fun g => !(g.Name == "") && (nm == "New" ++ g.Name || nm == "new" ++ g.Name))

/-- the filtering applied to the free-function group inside trimConstructor:
drop every method whose name is in the constructor-name map. -/
def dropCtor (gs : List StructInfo) (g : StructInfo) : StructInfo :=
  { g with Methods := g.Methods.filter (fun f => !(ctorNames gs f.Name)) }

/-- the funcInfo variable of Go trimConstructor points at the LAST group with
empty name (the loop overwrites it); only that object is rewritten.  With no
empty-named group the list is returned unchanged (funcInfo == nil). -/
def applyLastFree (upd : StructInfo → StructInfo) : List StructInfo → List StructInfo
  | [] => []
  | g :: rest =>
    if rest.any (fun x => x.Name == "") then g :: applyLastFree upd rest
    else if g.Name == "" then upd g :: rest
    else g :: applyLastFree upd rest

/-- Go trimConstructor of main.go (lines 245-271). -/
def trimConstructor (gs : List StructInfo) : List StructInfo :=
  applyLastFree (dropCtor gs) gs

/-- Go trimNoMethod of main.go (lines 234-243). -/
def trimNoMethod (gs : List StructInfo) : List StructInfo :=
  gs.filter (fun g => !(g.Methods.length == 0))

/-! The go/ast fragment the extractor consumes.  Each node carries the source
positions the program reads off it; expressions are reduced to their end
offset, the one attribute ever consumed. -/

/-- a source position: the line number and byte offset fset.Position reports. -/
structure Pos where
  line : Nat
  off : Nat
deriving DecidableEq, Repr

/-- an expression node, reduced to the byte offset where it ends. -/
structure ExprI where
  endOff : Nat
deriving DecidableEq, Repr

mutual
/-- the statement kinds visitStmt dispatches on; otherS stands for every
non-control-flow statement (assignments, expression statements, ...). -/
inductive GoStmt : Type where
  | retS (pos pend : Pos)
  | ifS (pos : Pos) (cond : ExprI) (body : List GoStmt) (els : Option GoElse)
  | forS (pos : Pos) (bodyPos : Pos) (body : List GoStmt)
  | rangeS (pos : Pos) (x : ExprI) (body : List GoStmt)
  | switchS (pos : Pos) (tag : Option ExprI) (cases : List GoCase)
  | typeSwitchS (pos : Pos) (assign : ExprI) (cases : List GoCase)
  | selectS (pos : Pos) (comms : List GoComm)
  | blockS (pos : Pos) (body : List GoStmt)
  | otherS

/-- the else arm of an if statement: by the Go grammar either another if
statement or a block. -/
inductive GoElse : Type where
  | elifE (pos : Pos) (cond : ExprI) (body : List GoStmt) (els : Option GoElse)
  | blockE (pos : Pos) (body : List GoStmt)

/-- an ast.CaseClause: position, colon offset, match expressions (empty for
default) and body statement list. -/
inductive GoCase : Type where
  | mk (pos : Pos) (colonOff : Nat) (exprs : List ExprI) (body : List GoStmt)

/-- an ast.CommClause: position, colon offset, whether Comm is nil (default
arm) and body statement list. -/
inductive GoComm : Type where
  | mk (pos : Pos) (colonOff : Nat) (commNil : Bool) (body : List GoStmt)
end

/-- strings.TrimSpace. -/
def trimSpace (cs : List Char) : List Char :=
  ((cs.dropWhile Char.isWhitespace).reverse.dropWhile Char.isWhitespace).reverse

/-- strings.TrimSpace(string(src[a:b])); Go panics when the slice bounds are
violated, modelled as none. -/
def sliceTrim (src : List Char) (a b : Nat) : Option String :=
  if a ≤ b ∧ b ≤ src.length then some (String.mk (trimSpace ((src.drop a).take (b - a)))) else none

/-- Go nodeToCode of part_002 (lines 838-888) on statements.  Only the header
fields of the statement are read.  The switch arm reads s.Tag.End(): when the
switch statement has no tag expression Tag is nil and the call panics (none).
The for arm reads the offset of s.Body.Pos()-1; the select arm slices six
bytes from the statement start. -/
def nodeToCode (src : List Char) : GoStmt → Option String
  | .retS p pe => sliceTrim src p.off pe.off
  | .ifS p cond _ _ => sliceTrim src p.off cond.endOff
  | .forS p bp _ => sliceTrim src p.off (bp.off - 1)
  | .rangeS p x _ => sliceTrim src p.off x.endOff
  | .switchS p tag _ =>
    match tag with
    | none => none
    | some t => sliceTrim src p.off t.endOff
  | .typeSwitchS p a _ => sliceTrim src p.off a.endOff
  | .selectS p _ => sliceTrim src p.off (p.off + 6)
  | .blockS _ _ => some "<block>"
  | .otherS => some "<invalid>"

/-- the CaseClause and CommClause arms of nodeToCode: slice from the clause
start to its colon. -/
def nodeToCodeCase (src : List Char) (p : Pos) (colonOff : Nat) : Option String :=
  sliceTrim src p.off colonOff

/-- bodyStart := strings.Index(code, "\x7b"); if bodyStart > 0 the code is cut
there and trimmed (parseIfStmt lines 615-618). -/
def braceCut (code : String) : String :=
  match code.toList.findIdx? (fun c => c == '{') with
  | some i => if 0 < i then String.mk (trimSpace (code.toList.take i)) else code
  | none => code

/-- Go parseReturnStmt of part_002 (lines 600-610). -/
def parseReturnStmt (src : List Char) (p pe : Pos) : Option Branch :=
  match nodeToCode src (.retS p pe) with
  | none => none
  | some code => some (.mk BranchReturn p.line code [] true)

mutual

/-- Go ExtractBranches / extractFromStmtList of part_002: walk the statement
list in order, each statement appending its branches (if any). -/
def extractFromStmtList (src : List Char) : List GoStmt → Option (List Branch)
  | [] => some []
  | s :: rest =>
    match visitStmt src s with
    | none => none
    | some bs =>
      match extractFromStmtList src rest with
      | none => none
      | some more => some (bs ++ more)
termination_by l => 2 * sizeOf l

/-- Go visitStmt of part_002 (lines 571-598): dispatch on the statement kind;
non-control-flow statements contribute nothing. -/
def visitStmt (src : List Char) : GoStmt → Option (List Branch)
  | .retS p pe =>
    match parseReturnStmt src p pe with
    | none => none
    | some b => some [b]
  | .ifS p cond body els =>
    match parseIfStmt src p cond body els with
    | none => none
    | some b => some [b]
  | .forS p bp body =>
    match parseForStmt src p bp body with
    | none => none
    | some b => some [b]
  | .rangeS p x body =>
    match parseRangeStmt src p x body with
    | none => none
    | some b => some [b]
  | .switchS p tag cases =>
    match parseSwitchStmt src p tag cases with
    | none => none
    | some b => some [b]
  | .typeSwitchS p a cases =>
    match parseTypeSwitchStmt src p a cases with
    | none => none
    | some b => some [b]
  | .selectS p comms =>
    match parseSelectStmt src p comms with
    | none => none
    | some b => some [b]
  | .blockS p body =>
    match parseBlockStmt src p body with
    | none => none
    | some b => some [b]
  | .otherS => some []
termination_by s => 2 * sizeOf s + 1

/-- Go parseIfStmt of part_002 (lines 612-681).  The first child is the if
clause; the else arm either appends one else branch or unrolls the else-if
chain; a single-child result is promoted in place of the wrapper. -/
def parseIfStmt (src : List Char) (p : Pos) (cond : ExprI) (body : List GoStmt)
    (els : Option GoElse) : Option Branch :=
  (nodeToCode src (.ifS p cond [] none)).bind (fun code0 =>
    (extractFromStmtList src body).bind (fun cb =>
      match els with
      | none => some (.mk BranchIf p.line (braceCut code0) cb false)
      | some e =>
        (elseChain src (braceCut code0) p.line e).map (fun extra =>
          if (Branch.mk BranchIf p.line (braceCut code0) cb false :: extra).length == 1 then
            Branch.mk BranchIf p.line (braceCut code0) cb false
          else
            Branch.mk BranchIfHost p.line (braceCut code0)
              (Branch.mk BranchIf p.line (braceCut code0) cb false :: extra) false)))
termination_by 2 * (sizeOf body + sizeOf els) + 1

/-- the loop over the else-if chain inside parseIfStmt: one BranchElseIf per
link (its code prefixed with else), and the terminal non-if else block gets a
BranchElse whose code back-references the root if header and line. -/
def elseChain (src : List Char) (rootCode : String) (rootLine : Nat) :
    GoElse → Option (List Branch)
  | .elifE p cond body els =>
    match nodeToCode src (.ifS p cond [] none) with
    | none => none
    | some condCode =>
      match extractFromStmtList src body with
      | none => none
      | some cb =>
        let b : Branch := .mk BranchElseIf p.line ("else " ++ condCode) cb false
        match els with
        | none => some [b]
        | some next =>
          match elseChain src rootCode rootLine next with
          | none => none
          | some rest => some (b :: rest)
  | .blockE p body =>
    match extractFromStmtList src body with
    | none => none
    | some eb =>
      some [.mk BranchElse p.line
        ("else // of [" ++ rootCode ++ "]:@" ++ toString rootLine) eb false]
termination_by e => 2 * sizeOf e + 1

/-- Go parseForStmt of part_002 (lines 683-694). -/
def parseForStmt (src : List Char) (p bp : Pos) (body : List GoStmt) : Option Branch :=
  match nodeToCode src (.forS p bp []) with
  | none => none
  | some code =>
    match extractFromStmtList src body with
    | none => none
    | some cb => some (.mk BranchFor p.line code cb false)
termination_by 2 * sizeOf body + 1

/-- Go parseRangeStmt of part_002 (lines 696-707). -/
def parseRangeStmt (src : List Char) (p : Pos) (x : ExprI) (body : List GoStmt) : Option Branch :=
  match nodeToCode src (.rangeS p x []) with
  | none => none
  | some code =>
    match extractFromStmtList src body with
    | none => none
    | some cb => some (.mk BranchRange p.line code cb false)
termination_by 2 * sizeOf body + 1

/-- the case loop of parseSwitchStmt: one branch per CaseClause, default
clauses (no match expressions) marked and back-referenced. -/
def switchCases (src : List Char) (swCode : String) (swLine : Nat) :
    List GoCase → Option (List Branch)
  | [] => some []
  | .mk p colonOff exprs body :: rest =>
    match nodeToCodeCase src p colonOff with
    | none => none
    | some caseCode0 =>
      let typ := if exprs.isEmpty then BranchDefault else BranchCase
      let caseCode :=
        if exprs.isEmpty then caseCode0 ++ " // [" ++ swCode ++ "]:@" ++ toString swLine
        else caseCode0
      match extractFromStmtList src body with
      | none => none
      | some cb =>
        match switchCases src swCode swLine rest with
        | none => none
        | some more => some (.mk typ p.line caseCode cb false :: more)
termination_by l => 2 * sizeOf l

/-- Go parseSwitchStmt of part_002 (lines 709-742). -/
def parseSwitchStmt (src : List Char) (p : Pos) (tag : Option ExprI)
    (cases : List GoCase) : Option Branch :=
  match nodeToCode src (.switchS p tag []) with
  | none => none
  | some code =>
    match switchCases src code p.line cases with
    | none => none
    | some cb => some (.mk BranchSwitch p.line code cb false)
termination_by 2 * sizeOf cases + 1

/-- the case loop of parseTypeSwitchStmt (default marker says of). -/
def typeSwitchCases (src : List Char) (swCode : String) (swLine : Nat) :
    List GoCase → Option (List Branch)
  | [] => some []
  | .mk p colonOff exprs body :: rest =>
    match nodeToCodeCase src p colonOff with
    | none => none
    | some caseCode0 =>
      let typ := if exprs.isEmpty then BranchDefault else BranchCase
      let caseCode :=
        if exprs.isEmpty then caseCode0 ++ " // of [" ++ swCode ++ "]:@" ++ toString swLine
        else caseCode0
      match extractFromStmtList src body with
      | none => none
      | some cb =>
        match typeSwitchCases src swCode swLine rest with
        | none => none
        | some more => some (.mk typ p.line caseCode cb false :: more)
termination_by l => 2 * sizeOf l

/-- Go parseTypeSwitchStmt of part_002 (lines 744-777). -/
def parseTypeSwitchStmt (src : List Char) (p : Pos) (a : ExprI)
    (cases : List GoCase) : Option Branch :=
  match nodeToCode src (.typeSwitchS p a []) with
  | none => none
  | some code =>
    match typeSwitchCases src code p.line cases with
    | none => none
    | some cb => some (.mk BranchTypeSwitch p.line code cb false)
termination_by 2 * sizeOf cases + 1

/-- the comm-clause loop of parseSelectStmt. -/
def selectComms (src : List Char) (selCode : String) (selLine : Nat) :
    List GoComm → Option (List Branch)
  | [] => some []
  | .mk p colonOff commNil body :: rest =>
    match nodeToCodeCase src p colonOff with
    | none => none
    | some commCode0 =>
      let typ := if commNil then BranchCommClauseDefault else BranchCommClause
      let commCode :=
        if commNil then commCode0 ++ " // of [" ++ selCode ++ "]:@" ++ toString selLine
        else commCode0
      match extractFromStmtList src body with
      | none => none
      | some cb =>
        match selectComms src selCode selLine rest with
        | none => none
        | some more => some (.mk typ p.line commCode cb false :: more)
termination_by l => 2 * sizeOf l

/-- Go parseSelectStmt of part_002 (lines 779-812). -/
def parseSelectStmt (src : List Char) (p : Pos) (comms : List GoComm) : Option Branch :=
  match nodeToCode src (.selectS p []) with
  | none => none
  | some code =>
    match selectComms src code p.line comms with
    | none => none
    | some cb => some (.mk BranchSelect p.line code cb false)
termination_by 2 * sizeOf comms + 1

/-- Go parseBlockStmt of part_002 (lines 814-828): extract the block body;
a single extracted child is returned in place of the BranchBlock wrapper. -/
def parseBlockStmt (src : List Char) (p : Pos) (body : List GoStmt) : Option Branch :=
  match extractFromStmtList src body with
  | none => none
  | some cb =>
    match cb with
    | [b1] => some b1
    | _ => some (.mk BranchBlock p.line "<block>" cb false)
termination_by 2 * sizeOf body + 1

end

/-- Go ExtractBranches of part_002 (lines 563-569): a function body is walked
as its statement list. -/
def ExtractBranches (src : List Char) (body : List GoStmt) : Option (List Branch) :=
  extractFromStmtList src body

/-! The grouping phase of ParseFile. -/

/-- a method receiver type expression: plain identifier, pointer to an
identifier, or anything else. -/
inductive GoRecv : Type where
  | identR (name : String)
  | starIdentR (name : String)
  | otherR

/-- a top-level declaration, flattened: one entry per TypeSpec of each GenDecl
(in order), one per FuncDecl, otherD for the rest.  none as receiver stands
for fn.Recv == nil or an empty receiver list. -/
inductive GoDecl : Type where
  | typeS (name : String) (isStruct : Bool)
  | funcD (name : String) (recv : Option GoRecv) (body : List GoStmt)
  | otherD

/-- Go GetReceiverType of part_002 (lines 547-561). -/
def GetReceiverType (recv : Option GoRecv) : String :=
  match recv with
  | none => ""
  | some (.identR n) => n
  | some (.starIdentR n) => n
  | some .otherR => ""

/-- go/ast IsExported: the name starts with an upper-case letter. -/
def isExportedStr (s : String) : Bool :=
  match s.toList with
  | [] => false
  | c :: _ => c.isUpper

/-- the first declaration loop of ParseFile: one StructInfo per struct
TypeSpec, in declaration order. -/
def buildStructs : List GoDecl → List StructInfo
  | [] => []
  | .typeS n true :: rest => ⟨n, isExportedStr n, []⟩ :: buildStructs rest
  | _ :: rest => buildStructs rest

/-- lookup in the structTypes map: the map entry for a name points at the
most recently inserted group with that name, so lookup yields the last index
of the name in the list; none models the nil map entry. -/
def lastIdxOf : List StructInfo → String → Option Nat
  | [], _ => none
  | g :: rest, n =>
    match lastIdxOf rest n with
    | some j => some (j + 1)
    | none => if g.Name == n then some 0 else none

/-- si.Methods = append(si.Methods, info) through the map pointer: append the
FuncInfo to the group at the given index. -/
def addMethodAt (fi : FuncInfo) : List StructInfo → Nat → List StructInfo
  | [], _ => []
  | g :: rest, 0 => { g with Methods := g.Methods ++ [fi] } :: rest
  | g :: rest, i + 1 => g :: addMethodAt fi rest i

/-- the second declaration loop of ParseFile: for each FuncDecl, resolve the
receiver, extract the branches and append the FuncInfo to the receiver group.
A receiver type that is in no group makes structTypes return nil and the
append panics (none); a panic inside extraction also propagates. -/
def attachFns (src : List Char) : List StructInfo → List GoDecl → Option (List StructInfo)
  | gs, [] => some gs
  | gs, .funcD nm recv body :: rest =>
    let rt := GetReceiverType recv
    match lastIdxOf gs rt with
    | none => none
    | some i =>
      match ExtractBranches src body with
      | none => none
      | some bs => attachFns src (addMethodAt ⟨rt, nm, isExportedStr nm, bs⟩ gs i) rest
  | gs, _ :: rest => attachFns src gs rest

/-- Go ParseFile of part_002 (lines 489-545), with the external file read and
go/parser step replaced by the parsed inputs.  After the struct scan, a dummy
empty-named group is appended when the map has no entry for the empty name
(lines 520-524); then the function declarations are attached.  The package
name pass-through is omitted. -/
def ParseFile (src : List Char) (decls : List GoDecl) : Option (List StructInfo) :=
  let structs := buildStructs decls
  let structs2 :=
    if structs.any (fun g => g.Name == "") then structs
    else structs ++ [⟨"", false, []⟩]
  attachFns src structs2 decls

/-! Facts about HasReturn: the returned boolean is the pure reachability value
through the flags, and the receiver update only promotes flags (it preserves
identity, size, the pure value, honest reachability, and truthfulness). -/

mutual
def HasReturn_fst : ∀ b : Branch, (Branch.HasReturn b).1 = hasReturnVal b
  | .mk t li co cs hr => by
    have h := hasReturnLoop_fst cs
    unfold Branch.HasReturn
    cases hr
    · cases hl : hasReturnLoop cs with
      | mk r cs2 =>
        rw [hl] at h
        simp only at h
        simp [hasReturnVal, h]
    · simp [hasReturnVal]

def hasReturnLoop_fst : ∀ l : List Branch, (hasReturnLoop l).1 = hasReturnValList l
  | [] => by simp [hasReturnLoop, hasReturnValList]
  | c :: l => by
    have hc := HasReturn_fst c
    have hl2 := hasReturnLoop_fst l
    unfold hasReturnLoop
    cases h1 : Branch.HasReturn c with
    | mk r c2 =>
      rw [h1] at hc
      simp only at hc
      cases r
      · cases h2 : hasReturnLoop l with
        | mk r2 l2 =>
          rw [h2] at hl2
          simp only at hl2
          simp [hasReturnValList, ← hc, hl2]
      · simp [hasReturnValList, ← hc]
end

def HasReturn_keyOf : ∀ b : Branch, keyOf (Branch.HasReturn b).2 = keyOf b
  | .mk t li co cs hr => by
    unfold Branch.HasReturn
    cases hr
    · cases hl : hasReturnLoop cs with
      | mk r cs2 => simp [keyOf, Branch.Typ, Branch.Line, Branch.CodeLine]
    · simp [keyOf]

mutual
def HasReturn_hasVal : ∀ b : Branch, hasReturnVal (Branch.HasReturn b).2 = hasReturnVal b
  | .mk t li co cs hr => by
    have h := hasReturnLoop_hasVal cs
    have hf := hasReturnLoop_fst cs
    unfold Branch.HasReturn
    cases hr
    · cases hl : hasReturnLoop cs with
      | mk r cs2 =>
        rw [hl] at h hf
        simp only at h hf
        simp [hasReturnVal, h, ← hf]
    · simp [hasReturnVal]

def hasReturnLoop_hasVal :
    ∀ l : List Branch, hasReturnValList (hasReturnLoop l).2 = hasReturnValList l
  | [] => by simp [hasReturnLoop]
  | c :: l => by
    have hc := HasReturn_hasVal c
    have hl2 := hasReturnLoop_hasVal l
    unfold hasReturnLoop
    cases h1 : Branch.HasReturn c with
    | mk r c2 =>
      rw [h1] at hc
      simp only at hc
      cases r
      · cases h2 : hasReturnLoop l with
        | mk r2 l2 =>
          rw [h2] at hl2
          simp only at hl2
          simp [hasReturnValList, hc, hl2]
      · simp [hasReturnValList, hc]
end

mutual
def HasReturn_reach : ∀ b : Branch, reachRet (Branch.HasReturn b).2 = reachRet b
  | .mk t li co cs hr => by
    have h := hasReturnLoop_reach cs
    unfold Branch.HasReturn
    cases hr
    · cases hl : hasReturnLoop cs with
      | mk r cs2 =>
        rw [hl] at h
        simp only at h
        simp [reachRet, h]
    · simp [reachRet]

def hasReturnLoop_reach :
    ∀ l : List Branch, reachRetList (hasReturnLoop l).2 = reachRetList l
  | [] => by simp [hasReturnLoop]
  | c :: l => by
    have hc := HasReturn_reach c
    have hl2 := hasReturnLoop_reach l
    unfold hasReturnLoop
    cases h1 : Branch.HasReturn c with
    | mk r c2 =>
      rw [h1] at hc
      simp only at hc
      cases r
      · cases h2 : hasReturnLoop l with
        | mk r2 l2 =>
          rw [h2] at hl2
          simp only at hl2
          simp [reachRetList, hc, hl2]
      · simp [reachRetList, hc]
end

mutual
def honest_val_reach : ∀ b : Branch, honest b = true → hasReturnVal b = reachRet b
  | .mk t li co cs hr => by
    intro h
    have hl := honestList_val_reach cs
    simp only [honest, Bool.and_eq_true] at h
    obtain ⟨⟨h1, h2⟩, h3⟩ := h
    have hcs := hl h3
    simp only [hasReturnVal, reachRet]
    rw [hcs]
    cases hr <;> cases ht : (t == BranchReturn) <;> cases hx : reachRetList cs <;> simp_all

def honestList_val_reach :
    ∀ l : List Branch, honestList l = true → hasReturnValList l = reachRetList l
  | [] => by simp [hasReturnValList, reachRetList]
  | c :: l => by
    intro h
    simp only [honestList, Bool.and_eq_true] at h
    simp only [hasReturnValList, reachRetList]
    rw [honest_val_reach c h.1, honestList_val_reach l h.2]
end

mutual
def HasReturn_honest : ∀ b : Branch, honest b = true → honest (Branch.HasReturn b).2 = true
  | .mk t li co cs hr => by
    intro h
    have hloop := hasReturnLoop_honest cs
    have hfst := hasReturnLoop_fst cs
    have hreach := hasReturnLoop_reach cs
    simp only [honest, Bool.and_eq_true] at h
    obtain ⟨⟨h1, h2⟩, h3⟩ := h
    have hs := honestList_val_reach cs h3
    unfold Branch.HasReturn
    cases hr
    · cases hl : hasReturnLoop cs with
      | mk r cs2 =>
        rw [hl] at hloop hfst hreach
        simp only at hfst hreach
        have hcs2 := hloop h3
        simp only [Bool.false_eq_true, if_false, honest, Bool.and_eq_true]
        refine ⟨⟨?_, ?_⟩, hcs2⟩
        · cases hr2 : r
          · simp
          · rw [hr2] at hfst
            rw [hs] at hfst
            simp [hreach, ← hfst]
        · cases ht : (t == BranchReturn) <;> simp_all
    · simp only [if_pos, honest, Bool.and_eq_true]
      exact ⟨⟨by simpa using h1, h2⟩, h3⟩

def hasReturnLoop_honest :
    ∀ l : List Branch, honestList l = true → honestList (hasReturnLoop l).2 = true
  | [] => by simp [hasReturnLoop]
  | c :: l => by
    intro h
    simp only [honestList, Bool.and_eq_true] at h
    have hc := HasReturn_honest c h.1
    have hl2 := hasReturnLoop_honest l h.2
    unfold hasReturnLoop
    cases h1 : Branch.HasReturn c with
    | mk r c2 =>
      rw [h1] at hc
      simp only at hc
      cases r
      · cases h2 : hasReturnLoop l with
        | mk r2 l2 =>
          rw [h2] at hl2
          simp only at hl2
          simp [honestList, hc, hl2]
      · simp [honestList, hc, h.2]
end

/-- strong induction over the flag-insensitive size measure, so the induction
hypothesis survives the flag promotions of HasReturn. -/
def branchBszInd (P : Branch → Prop) (Q : List Branch → Prop)
    (hmk : ∀ t li co cs hr, Q cs → P (.mk t li co cs hr))
    (hnil : Q [])
    (hcons : ∀ c l, (∀ c2 : Branch, bsz c2 ≤ bsz c → P c2) → Q l → Q (c :: l)) :
    (∀ b, P b) ∧ (∀ l, Q l) := by
  have key : ∀ n : Nat, (∀ b, bsz b ≤ n → P b) ∧ (∀ l, bszList l ≤ n → Q l) := by
    intro n
    induction n using Nat.strong_induction_on with
    | _ n ih =>
      constructor
      · intro b hb
        match b with
        | .mk t li co cs hr =>
          have hsz : bsz (Branch.mk t li co cs hr) = 1 + bszList cs := by simp [bsz]
          rw [hsz] at hb
          have hlt : bszList cs < n := by omega
          exact hmk t li co cs hr ((ih (bszList cs) hlt).2 cs le_rfl)
      · intro l hl
        match l with
        | [] => exact hnil
        | c :: l2 =>
          have hsz : bszList (c :: l2) = 1 + bsz c + bszList l2 := by simp [bszList]
          rw [hsz] at hl
          have hc : bsz c < n := by omega
          have hl2 : bszList l2 < n := by omega
          exact hcons c l2 (fun c2 hc2 => (ih (bsz c) hc).1 c2 hc2)
            ((ih (bszList l2) hl2).2 l2 le_rfl)
  exact ⟨fun b => (key (bsz b)).1 b le_rfl, fun l => (key (bszList l)).2 l le_rfl⟩

/-- unfolding equation of trimNoReturnBranch on a constructor. -/
def trim_mk : ∀ t li co cs hr, trimNoReturnBranch (Branch.mk t li co cs hr) =
    Branch.mk t li co (trimNoReturnChildren cs) hr := by
  intro t li co cs hr
  unfold trimNoReturnBranch
  rfl

/-- the loop step of trimNoReturnBranch: a child is kept exactly when its
HasReturn call answers true, and the kept child is the updated one. -/
def trimChildren_cons : ∀ c l, trimNoReturnChildren (c :: l) =
    if hasReturnVal c then
      trimNoReturnBranch (Branch.HasReturn c).2 :: trimNoReturnChildren l
    else trimNoReturnChildren l := by
  intro c l
  have hf := HasReturn_fst c
  rw [trimNoReturnChildren.eq_def]
  simp only
  split
  next c2 heq =>
    rw [heq] at hf
    simp only at hf
    rw [heq, ← hf]
    simp
  next c2 heq =>
    rw [heq] at hf
    simp only at hf
    rw [← hf]
    simp

/-- master invariant of the pruning pass: on a tree with truthful flags whose
HasReturn value is true, trimming keeps the flags truthful, the pruned tree
still reaches a return branch, and its shape is the promised pruned shape. -/
def trimMaster :
    (∀ b : Branch, honest b = true → hasReturnVal b = true →
      honest (trimNoReturnBranch b) = true ∧ reachRet (trimNoReturnBranch b) = true ∧
      prunedGood (trimNoReturnBranch b) = true) ∧
    (∀ l : List Branch, honestList l = true →
      honestList (trimNoReturnChildren l) = true ∧
      prunedGoodList (trimNoReturnChildren l) = true ∧
      (hasReturnValList l = true → reachRetList (trimNoReturnChildren l) = true) ∧
      (trimNoReturnChildren l = [] → hasReturnValList l = false) ∧
      (trimNoReturnChildren l ≠ [] → reachRetList (trimNoReturnChildren l) = true)) := by
  apply branchBszInd
  · -- the node case
    intro t li co cs hr hQ
    intro hhon hval
    simp only [honest, Bool.and_eq_true] at hhon
    obtain ⟨⟨h1, h2⟩, h3⟩ := hhon
    obtain ⟨q1, q2, q3, q4, q5⟩ := hQ h3
    have hsync := honestList_val_reach cs h3
    simp only [hasReturnVal] at hval
    rw [trim_mk]
    refine ⟨?_, ?_, ?_⟩
    · simp only [honest, Bool.and_eq_true]
      refine ⟨⟨?_, h2⟩, q1⟩
      cases hr
      · simp
      · simp only [Bool.not_true, Bool.false_or, Bool.or_eq_true] at h1
        rcases h1 with h1 | h1
        · simp [h1]
        · rw [← hsync] at h1
          simp [q3 h1]
    · simp only [reachRet, Bool.or_eq_true]
      cases hvl : hasReturnValList cs
      · rw [hvl] at hval
        simp at hval
        rw [hval] at h1
        simp only [Bool.not_true, Bool.false_or, Bool.or_eq_true] at h1
        rcases h1 with h1 | h1
        · exact Or.inl h1
        · rw [← hsync, hvl] at h1
          simp at h1
      · exact Or.inr (q3 hvl)
    · simp only [prunedGood, Bool.and_eq_true]
      refine ⟨?_, q2⟩
      by_cases he : trimNoReturnChildren cs = []
      · have hvf := q4 he
        rw [hvf] at hval
        simp at hval
        rw [hval] at h1
        simp only [Bool.not_true, Bool.false_or, Bool.or_eq_true] at h1
        rw [← hsync] at h1
        rcases h1 with h1 | h1
        · simp [he, h1, hval]
        · rw [hvf] at h1
          simp at h1
      · have h5 := q5 he
        have hne : (trimNoReturnChildren cs).isEmpty = false := by
          cases hx : trimNoReturnChildren cs
          · exact absurd hx he
          · simp
        simp [hne, h5]
  · -- the empty list case
    intro _
    refine ⟨by simp [trimNoReturnChildren, honestList], by simp [trimNoReturnChildren, prunedGoodList], ?_, ?_, ?_⟩
    · intro h
      simp [hasReturnValList] at h
    · intro _
      simp [hasReturnValList]
    · intro h
      simp [trimNoReturnChildren] at h
  · -- the cons case
    intro c l hP hQl hhon
    simp only [honestList, Bool.and_eq_true] at hhon
    obtain ⟨hc, hl⟩ := hhon
    obtain ⟨q1, q2, q3, q4, q5⟩ := hQl hl
    rw [trimChildren_cons]
    cases hv : hasReturnVal c
    · rw [if_neg (by simp)]
      refine ⟨q1, q2, ?_, ?_, q5⟩
      · intro h
        simp only [hasReturnValList, hv, Bool.false_or] at h
        exact q3 h
      · intro h
        simp only [hasReturnValList, hv, Bool.false_or]
        exact q4 h
    · rw [if_pos rfl]
      have hc2hon := HasReturn_honest c hc
      have hc2val : hasReturnVal (Branch.HasReturn c).2 = true := by
        rw [HasReturn_hasVal c, hv]
      have hbsz : bsz (Branch.HasReturn c).2 ≤ bsz c := le_of_eq (HasReturn_bsz c)
      obtain ⟨p1, p2, p3⟩ := hP (Branch.HasReturn c).2 hbsz hc2hon hc2val
      refine ⟨?_, ?_, ?_, ?_, ?_⟩
      · simp [honestList, p1, q1]
      · simp [prunedGoodList, p3, q2]
      · intro _
        simp [reachRetList, p2]
      · intro h
        simp at h
      · intro _
        simp [reachRetList, p2]

/-- trimming keeps the identity of the root node. -/
def trim_keyOf : ∀ b : Branch, keyOf (trimNoReturnBranch b) = keyOf b
  | .mk t li co cs hr => by
    rw [trim_mk]
    simp [keyOf, Branch.Typ, Branch.Line, Branch.CodeLine]

/-- order preservation of the pruning loop: the kept children are exactly the
children whose HasReturn value is true, in their original order, with their
identities unchanged. -/
def trimChildren_keys : ∀ l : List Branch,
    (trimNoReturnChildren l).map keyOf = (l.filter (fun c => hasReturnVal c)).map keyOf := by
  intro l
  induction l with
  | nil => simp [trimNoReturnChildren]
  | cons c l ih =>
    rw [trimChildren_cons]
    cases hv : hasReturnVal c
    · rw [if_neg (by simp)]
      simp [List.filter_cons, hv, ih]
    · rw [if_pos rfl]
      simp only [List.map_cons, List.filter_cons, hv, if_pos]
      rw [trim_keyOf, HasReturn_keyOf]
      simp [ih]

/-- every member of an honest list is honest. -/
def honestList_mem : ∀ l : List Branch, honestList l = true → ∀ c ∈ l, honest c = true := by
  intro l
  induction l with
  | nil => intro _ c hc; simp at hc
  | cons d l ih =>
    intro h c hc
    simp only [honestList, Bool.and_eq_true] at h
    rcases List.mem_cons.mp hc with rfl | hc
    · exact h.1
    · exact ih h.2 c hc

/-- honesty of the flags descends to every node of the tree. -/
def honest_sub (n : Branch) : ∀ b : Branch, SubBranch n b → honest b = true → honest n = true := by
  intro b hsub
  induction hsub with
  | refl => exact fun h => h
  | sub c2 b2 hs hmem ih =>
    intro h
    apply ih
    match b2, hmem, h with
    | .mk t li co cs hr, hmem, h =>
      simp only [honest, Bool.and_eq_true] at h
      exact honestList_mem cs h.2 c2 (by simpa [Branch.Children] using hmem)

/-- after a HasReturn call that answered true, the flag of the updated node is
set, so every later call answers true immediately on the same node. -/
def HasReturn_again : ∀ b c2 : Branch, Branch.HasReturn b = (true, c2) →
    Branch.HasReturn c2 = (true, c2) := by
  intro b c2 h
  have hflag : c2.hasReturnFlag = true := by
    match b with
    | .mk t li co cs hr =>
      unfold Branch.HasReturn at h
      cases hr
      · rw [if_neg (by simp)] at h
        cases hl : hasReturnLoop cs with
        | mk r cs2 =>
          rw [hl] at h
          simp only [Prod.mk.injEq] at h
          obtain ⟨h1, h2⟩ := h
          rw [← h2, h1]
          simp [Branch.hasReturnFlag]
      · rw [if_pos rfl] at h
        simp only [Prod.mk.injEq] at h
        rw [← h.2]
        simp [Branch.hasReturnFlag]
  match c2 with
  | .mk t2 li2 co2 cs2 hr2 =>
    simp only [Branch.hasReturnFlag] at hflag
    unfold Branch.HasReturn
    rw [hflag]
    simp

/-- the extractor walks the statement list in order: the result is the
concatenation of each statement's contribution, in source order. -/
def extract_order : ∀ (src : List Char) (stmts : List GoStmt) (bs : List Branch),
    extractFromStmtList src stmts = some bs →
    ∃ parts : List (List Branch),
      List.Forall₂ (fun s ps => visitStmt src s = some ps) stmts parts ∧ bs = parts.flatten := by
  intro src stmts
  induction stmts with
  | nil =>
    intro bs h
    simp only [extractFromStmtList, Option.some.injEq] at h
    subst h
    exact ⟨[], List.Forall₂.nil, rfl⟩
  | cons s rest ih =>
    intro bs h
    simp only [extractFromStmtList] at h
    cases hv : visitStmt src s with
    | none => simp [hv] at h
    | some bs1 =>
      simp only [hv] at h
      cases he : extractFromStmtList src rest with
      | none => simp [he] at h
      | some more =>
        simp only [he, Option.some.injEq] at h
        obtain ⟨parts, hf, hj⟩ := ih more he
        refine ⟨bs1 :: parts, List.Forall₂.cons hv hf, ?_⟩
        rw [← h, hj]
        simp

/-- an if statement without an else arm yields its lone clause directly: the
wrapper is elided and the clause (kind BranchIf) lands in the parent list. -/
def parseIf_noelse : ∀ (src : List Char) (p : Pos) (cond : ExprI) (body : List GoStmt)
    (b : Branch), parseIfStmt src p cond body none = some b →
    ∃ cb, extractFromStmtList src body = some cb ∧
      b.Typ = BranchIf ∧ b.Line = p.line ∧ b.Children = cb ∧
      visitStmt src (.ifS p cond body none) = some [b] := by
  intro src p cond body b h
  have h0 := h
  simp only [parseIfStmt] at h
  cases hc : nodeToCode src (.ifS p cond [] none) with
  | none => simp [hc, Option.bind] at h
  | some code0 =>
    simp only [hc, Option.some_bind] at h
    cases he : extractFromStmtList src body with
    | none => simp [he, Option.bind] at h
    | some cb =>
      simp only [he, Option.some_bind, Option.some.injEq] at h
      refine ⟨cb, rfl, ?_, ?_, ?_, ?_⟩
      · rw [← h]
        rfl
      · rw [← h]
        rfl
      · rw [← h]
        rfl
      · simp only [visitStmt, h0]

/-- a nested block whose extraction yields exactly one child is promoted in
place of the block. -/
def parseBlock_single : ∀ (src : List Char) (p : Pos) (body : List GoStmt) (b1 : Branch),
    extractFromStmtList src body = some [b1] →
    visitStmt src (.blockS p body) = some [b1] := by
  intro src p body b1 he
  simp only [visitStmt, parseBlockStmt, he]

/-- a nested block whose extraction yields zero or several children emits a
BranchBlock wrapper with those children, in order. -/
def parseBlock_multi : ∀ (src : List Char) (p : Pos) (body : List GoStmt) (cb : List Branch),
    extractFromStmtList src body = some cb → cb.length ≠ 1 →
    visitStmt src (.blockS p body) = some [.mk BranchBlock p.line "<block>" cb false] := by
  intro src p body cb he hn
  simp only [visitStmt, parseBlockStmt, he]
  match cb, hn with
  | [], _ => rfl
  | b1 :: b2 :: rest, _ => rfl
  | [b1], hn => exact absurd rfl hn

/-- the scope-func loop is a first-match search. -/
def firstNoName_find : ∀ gs : List StructInfo,
    firstNoName gs = gs.find? (fun g => g.Name == "") := by
  intro gs
  induction gs with
  | nil => simp [firstNoName]
  | cons g rest ih =>
    simp only [firstNoName, List.find?]
    cases hg : (g.Name == "")
    · simp [ih]
    · simp

/-- with no empty-named group present the scope-func loop finds nothing. -/
def firstNoName_none : ∀ gs : List StructInfo,
    (∀ g ∈ gs, ¬(g.Name = "")) → firstNoName gs = none := by
  intro gs h
  induction gs with
  | nil => simp [firstNoName]
  | cons g rest ih =>
    simp only [firstNoName]
    have hg : (g.Name == "") = false := by
      cases hx : (g.Name == "")
      · rfl
      · exact absurd (by simpa using hx) (h g (by simp))
    rw [hg]
    simp only [Bool.false_eq_true, if_false]
    exact ih (fun g2 hg2 => h g2 (by simp [hg2]))

/-- appending a method at an index does not touch any group name. -/
def addMethodAt_names : ∀ (fi : FuncInfo) (gs : List StructInfo) (i : Nat),
    (addMethodAt fi gs i).map (fun g => g.Name) = gs.map (fun g => g.Name) := by
  intro fi gs
  induction gs with
  | nil => intro i; simp [addMethodAt]
  | cons g rest ih =>
    intro i
    cases i with
    | zero => simp [addMethodAt]
    | succ j => simp [addMethodAt, ih j]

/-- the method-attaching loop preserves the group names (in order). -/
def attachFns_names : ∀ (src : List Char) (decls : List GoDecl)
    (gs gs2 : List StructInfo), attachFns src gs decls = some gs2 →
    gs2.map (fun g => g.Name) = gs.map (fun g => g.Name) := by
  intro src decls
  induction decls with
  | nil =>
    intro gs gs2 h
    simp only [attachFns, Option.some.injEq] at h
    rw [← h]
  | cons d rest ih =>
    intro gs gs2 h
    match d with
    | .typeS n isS => exact ih gs gs2 h
    | .otherD => exact ih gs gs2 h
    | .funcD nm recv body =>
      simp only [attachFns] at h
      cases hi : lastIdxOf gs (GetReceiverType recv) with
      | none => simp [hi] at h
      | some i =>
        simp only [hi] at h
        cases hb : ExtractBranches src body with
        | none => simp [hb] at h
        | some bs =>
          simp only [hb] at h
          rw [ih _ _ h, addMethodAt_names]

/-- a member of the filter-count kind: a list that contains an empty-named
group has at least one in its free filter. -/
def freeCount_pos : ∀ gs : List StructInfo, gs.any (fun x => x.Name == "") = true →
    1 ≤ (gs.filter (fun g => g.Name == "")).length := by
  intro gs h
  obtain ⟨x, hx, hpx⟩ := List.any_eq_true.mp h
  have : x ∈ gs.filter (fun g => g.Name == "") := List.mem_filter.mpr ⟨hx, hpx⟩
  exact List.length_pos.mpr (fun he => by simp [he] at this)

/-- applyLastFree only rewrites an empty-named group, so the named groups
(and their methods) survive unchanged, in order. -/
def applyLastFree_named : ∀ (upd : StructInfo → StructInfo) (l : List StructInfo),
    (∀ g, (upd g).Name = g.Name) →
    (applyLastFree upd l).filter (fun g => !(g.Name == "")) =
      l.filter (fun g => !(g.Name == "")) := by
  intro upd l hname
  induction l with
  | nil => simp [applyLastFree]
  | cons g rest ih =>
    simp only [applyLastFree]
    by_cases ha : rest.any (fun x => x.Name == "") = true
    · rw [if_pos ha]
      simp [List.filter_cons, ih]
    · rw [if_neg ha]
      by_cases hg : (g.Name == "") = true
      · rw [if_pos hg]
        simp only [List.filter_cons]
        have h1 : (!(upd g).Name == "") = false := by
          rw [hname g]
          simp only [hg]
          rfl
        have h2 : (!g.Name == "") = false := by
          simp only [hg]
          rfl
        simp [h1, h2]
      · rw [if_neg hg]
        simp [List.filter_cons, ih]

/-- with at most one empty-named group, every empty-named group of the output
of applyLastFree is the update of an empty-named group of the input. -/
def applyLastFree_free : ∀ (upd : StructInfo → StructInfo) (l : List StructInfo),
    (l.filter (fun g => g.Name == "")).length ≤ 1 →
    ∀ g2 ∈ applyLastFree upd l, g2.Name = "" →
    ∃ g ∈ l, g.Name = "" ∧ g2 = upd g := by
  intro upd l
  induction l with
  | nil => intro _ g2 hg2; simp [applyLastFree] at hg2
  | cons g rest ih =>
    intro hcount g2 hmem hg2
    simp only [applyLastFree] at hmem
    by_cases ha : rest.any (fun x => x.Name == "") = true
    · rw [if_pos ha] at hmem
      have hrest := freeCount_pos rest ha
      rcases List.mem_cons.mp hmem with rfl | hmem
      · exfalso
        have hgf : (g2.Name == "") = true := by simp [hg2]
        rw [List.filter_cons, if_pos hgf, List.length_cons] at hcount
        omega
      · have hc2 : (rest.filter (fun g => g.Name == "")).length ≤ 1 := by
          rw [List.filter_cons] at hcount
          cases hx : (g.Name == "")
          · rw [hx] at hcount
            simpa using hcount
          · rw [hx] at hcount
            rw [if_pos rfl, List.length_cons] at hcount
            omega
        obtain ⟨g0, hg0, hname0, heq0⟩ := ih hc2 g2 hmem hg2
        exact ⟨g0, by simp [hg0], hname0, heq0⟩
    · rw [if_neg ha] at hmem
      by_cases hg : (g.Name == "") = true
      · rw [if_pos hg] at hmem
        rcases List.mem_cons.mp hmem with rfl | hmem
        · exact ⟨g, by simp, by simpa using hg, rfl⟩
        · exfalso
          apply ha
          exact List.any_eq_true.mpr ⟨g2, hmem, by simp [hg2]⟩
      · rw [if_neg hg] at hmem
        rcases List.mem_cons.mp hmem with rfl | hmem
        · exact absurd (by simp [hg2]) hg
        · obtain ⟨g0, hg0, hname0, heq0⟩ := ih (by
            simp only [List.filter_cons, hg] at hcount
            simpa [hg] using hcount) g2 hmem hg2
          exact ⟨g0, by simp [hg0], hname0, heq0⟩

/-- the constructor-name map answers true on New/new plus an existing named
group's name. -/
def ctorNames_hit : ∀ (gs : List StructInfo) (T : StructInfo), T ∈ gs → ¬(T.Name = "") →
    ctorNames gs ("New" ++ T.Name) = true ∧ ctorNames gs ("new" ++ T.Name) = true := by
  intro gs T hT hn
  constructor
  · exact List.any_eq_true.mpr ⟨T, hT, by simp [hn]⟩
  · exact List.any_eq_true.mpr ⟨T, hT, by simp [hn]⟩

/-! Concrete inputs used by the witnesses below. -/

/-- a one-group, one-method model whose only branch is a return branch. -/
def wModel1 : List StructInfo :=
  [StructInfo.mk "" false [FuncInfo.mk "" "F" false [Branch.mk BranchReturn 3 "return 1" [] true]]]

/-- a model with a named group Widget and a free group holding NewWidget. -/
def wModel5 : List StructInfo :=
  [StructInfo.mk "Widget" true [],
   StructInfo.mk "" false [FuncInfo.mk "" "NewWidget" true [], FuncInfo.mk "" "Other" true []]]

/-- Claim C1: after the reachability filter with option return (trimByPaths
calling trimNoReturnBranch on each FuncInfo branch forest, the forests having
truthful construction-time flags), every remaining leaf branch is a return
branch (hasReturn set, no children) and every remaining interior branch keeps
at least one descendant return branch. -/
theorem claim_C1 : ∀ gs : List StructInfo,
    (∀ g ∈ gs, ∀ f ∈ g.Methods, honestList f.Branches = true) →
    ∀ g2 ∈ trimByPaths "return" gs, ∀ f2 ∈ g2.Methods,
      prunedGoodList f2.Branches = true := by
  intro gs hhon g2 hg2 f2 hf2
  simp only [trimByPaths] at hg2
  rw [if_neg (by simp)] at hg2
  obtain ⟨g, hg, rfl⟩ := List.mem_map.mp hg2
  obtain ⟨f, hf, rfl⟩ := List.mem_map.mp (by simpa using hf2)
  have hq := (trimMaster.2 f.Branches (hhon g hg f hf)).2.1
  simp only [trimMethod, trim_mk, Branch.Children]
  exact hq

/-- witness for C1 at a one-method model whose only branch is a return. -/
theorem claim_C1_witness :
    (∀ g ∈ wModel1, ∀ f ∈ g.Methods, honestList f.Branches = true) ∧
    (∀ g2 ∈ trimByPaths "return" wModel1, ∀ f2 ∈ g2.Methods,
      prunedGoodList f2.Branches = true) := by
  have hh : ∀ g ∈ wModel1, ∀ f ∈ g.Methods, honestList f.Branches = true := by
    intro g hg f hf
    simp only [wModel1, List.mem_singleton] at hg
    subst hg
    simp only [List.mem_singleton] at hf
    subst hf
    rfl
  exact ⟨hh, claim_C1 _ hh⟩

/-- Claim C2 (the code violates the spec here): nodeToCode dereferences
s.Tag.End() on a switch statement with no tag expression, where Tag is nil,
so extraction panics on that valid statement (modelled: none); a select
statement and a for statement with no condition do succeed. -/
theorem claim_C2 :
    nodeToCode [] (.switchS ⟨1, 0⟩ none []) = none ∧
    visitStmt [] (.switchS ⟨1, 0⟩ none []) = none ∧
    visitStmt ("select".toList) (.selectS ⟨1, 0⟩ []) =
      some [.mk BranchSelect 1 "select" [] false] ∧
    visitStmt ("for a".toList) (.forS ⟨1, 0⟩ ⟨1, 5⟩ []) =
      some [.mk BranchFor 1 "for" [] false] := by
  refine ⟨rfl, ?_, ?_, ?_⟩
  · simp [visitStmt, parseSwitchStmt, nodeToCode]
  · simp [visitStmt, parseSelectStmt, nodeToCode, sliceTrim, selectComms]
    rfl
  · simp [visitStmt, parseForStmt, nodeToCode, sliceTrim, extractFromStmtList]
    rfl

/-- Claim C3: every group list ParseFile returns contains a StructInfo with
empty name (the synthetic free-function group), whether or not the file
declares any free functions. -/
theorem claim_C3 : ∀ (src : List Char) (decls : List GoDecl) (gs : List StructInfo),
    ParseFile src decls = some gs → ∃ g ∈ gs, g.Name = "" := by
  intro src decls gs h
  simp only [ParseFile] at h
  have hnames := attachFns_names src decls _ gs h
  have hmem : "" ∈ gs.map (fun g => g.Name) := by
    rw [hnames]
    by_cases ha : (buildStructs decls).any (fun g => g.Name == "") = true
    · rw [if_pos ha]
      obtain ⟨x, hx, hpx⟩ := List.any_eq_true.mp ha
      exact List.mem_map.mpr ⟨x, hx, by simpa using hpx⟩
    · rw [if_neg ha]
      simp
  obtain ⟨g, hg, hgn⟩ := List.mem_map.mp hmem
  exact ⟨g, hg, hgn⟩

/-- witness for C3 on the empty file: only the synthetic group is returned. -/
theorem claim_C3_witness :
    ParseFile [] [] = some [({ Name := "", IsExported := false, Methods := [] } : StructInfo)] ∧
    ∃ g ∈ [({ Name := "", IsExported := false, Methods := [] } : StructInfo)], g.Name = "" := by
  have h : ParseFile [] [] =
      some [({ Name := "", IsExported := false, Methods := [] } : StructInfo)] := rfl
  exact ⟨h, claim_C3 [] [] _ h⟩

/-- Claim C4: an if statement with no else clause contributes its lone
if-clause branch (kind BranchIf, carrying the recursively extracted body)
directly to the parent's branch sequence; no single-child wrapper appears. -/
theorem claim_C4 : ∀ (src : List Char) (p : Pos) (cond : ExprI) (body : List GoStmt)
    (b : Branch), parseIfStmt src p cond body none = some b →
    ∃ cb, extractFromStmtList src body = some cb ∧
      b.Typ = BranchIf ∧ b.Line = p.line ∧ b.Children = cb ∧
      visitStmt src (.ifS p cond body none) = some [b] :=
  parseIf_noelse

/-- witness for C4 on a concrete else-less if with empty body. -/
theorem claim_C4_witness :
    ∃ cb, extractFromStmtList ("if x".toList) [] = some cb ∧
      (Branch.mk BranchIf 1 "if x" [] false).Typ = BranchIf ∧
      (Branch.mk BranchIf 1 "if x" [] false).Line = 1 ∧
      (Branch.mk BranchIf 1 "if x" [] false).Children = cb ∧
      visitStmt ("if x".toList) (.ifS ⟨1, 0⟩ ⟨4⟩ [] none) =
        some [Branch.mk BranchIf 1 "if x" [] false] := by
  apply claim_C4 ("if x".toList) ⟨1, 0⟩ ⟨4⟩ [] (Branch.mk BranchIf 1 "if x" [] false)
  simp [parseIfStmt, nodeToCode, sliceTrim, extractFromStmtList, braceCut, trimSpace]

/-- Claim C6 counterexample: a plain nested block is not transparent.  On a
block with two extracted children the extractor emits one BranchBlock wrapper
node, not the two children inlined into the enclosing sequence. -/
theorem claim_C6_cex :
    (visitStmt ("ret".toList)
        (.blockS ⟨1, 0⟩ [.retS ⟨2, 0⟩ ⟨2, 3⟩, .retS ⟨3, 0⟩ ⟨3, 3⟩])).map
        (fun l => l.map Branch.Typ) = some [BranchBlock] ∧
    ¬ ((visitStmt ("ret".toList)
        (.blockS ⟨1, 0⟩ [.retS ⟨2, 0⟩ ⟨2, 3⟩, .retS ⟨3, 0⟩ ⟨3, 3⟩])).map
        (fun l => l.map Branch.Typ) = some [BranchReturn, BranchReturn]) := by
  have h : visitStmt ("ret".toList)
      (.blockS ⟨1, 0⟩ [.retS ⟨2, 0⟩ ⟨2, 3⟩, .retS ⟨3, 0⟩ ⟨3, 3⟩]) =
      some [Branch.mk BranchBlock 1 "<block>"
        [Branch.mk BranchReturn 2 "ret" [] true, Branch.mk BranchReturn 3 "ret" [] true] false] := by
    simp [visitStmt, parseBlockStmt, extractFromStmtList, parseReturnStmt, nodeToCode,
      sliceTrim, trimSpace]
  rw [h]
  constructor
  · rfl
  · intro hx
    simp [Branch.Typ, BranchBlock, BranchReturn] at hx

/-- Claim C6 as amended: a nested block whose extraction yields exactly one
child is promoted in place of the block; with zero or several children a
BranchBlock wrapper holding the extracted children in order is emitted (the
block is not inlined). -/
theorem claim_C6 :
    (∀ (src : List Char) (p : Pos) (body : List GoStmt) (b1 : Branch),
      extractFromStmtList src body = some [b1] →
      visitStmt src (.blockS p body) = some [b1]) ∧
    (∀ (src : List Char) (p : Pos) (body : List GoStmt) (cb : List Branch),
      extractFromStmtList src body = some cb → cb.length ≠ 1 →
      visitStmt src (.blockS p body) = some [.mk BranchBlock p.line "<block>" cb false]) :=
  ⟨parseBlock_single, parseBlock_multi⟩

/-- witness for the amended C6: promotion on a one-child block and a wrapper
on an empty block. -/
theorem claim_C6_witness :
    visitStmt ("ret".toList) (.blockS ⟨1, 0⟩ [.retS ⟨2, 0⟩ ⟨2, 3⟩]) =
      some [Branch.mk BranchReturn 2 "ret" [] true] ∧
    visitStmt [] (.blockS ⟨1, 0⟩ []) =
      some [Branch.mk BranchBlock 1 "<block>" [] false] := by
  constructor
  · apply claim_C6.1
    simp [extractFromStmtList, visitStmt, parseReturnStmt, nodeToCode, sliceTrim, trimSpace]
  · apply claim_C6.2 [] ⟨1, 0⟩ [] []
    · simp [extractFromStmtList]
    · simp

/-- Claim C5: with a named group T present and at most one free-function
group, trimConstructor leaves every named group (and its methods) unchanged
and removes from the free group every method named New or new plus T's exact
name. -/
theorem claim_C5 : ∀ (gs : List StructInfo) (T : StructInfo), T ∈ gs → ¬(T.Name = "") →
    (gs.filter (fun g => g.Name == "")).length ≤ 1 →
    ((trimConstructor gs).filter (fun g => !(g.Name == "")) =
      gs.filter (fun g => !(g.Name == ""))) ∧
    (∀ g2 ∈ trimConstructor gs, g2.Name = "" → ∀ f ∈ g2.Methods,
      ¬(f.Name = "New" ++ T.Name) ∧ ¬(f.Name = "new" ++ T.Name)) := by
  intro gs T hT hTn hcount
  constructor
  · exact applyLastFree_named (dropCtor gs) gs (fun g => rfl)
  · intro g2 hg2 hg2n f hf
    obtain ⟨g, hg, hgn, rfl⟩ := applyLastFree_free (dropCtor gs) gs hcount g2 hg2 hg2n
    simp only [dropCtor] at hf
    have hmem := List.mem_filter.mp hf
    obtain ⟨hc1, hc2⟩ := ctorNames_hit gs T hT hTn
    constructor
    · intro heq
      have := hmem.2
      rw [heq, hc1] at this
      simp at this
    · intro heq
      have := hmem.2
      rw [heq, hc2] at this
      simp at this

/-- witness for C5: NewWidget is dropped from the free group, the Widget
group survives untouched. -/
theorem claim_C5_witness :
    ((trimConstructor wModel5).filter (fun g => !(g.Name == "")) =
      wModel5.filter (fun g => !(g.Name == ""))) ∧
    (∀ g2 ∈ trimConstructor wModel5, g2.Name = "" → ∀ f ∈ g2.Methods,
      ¬(f.Name = "New" ++ "Widget") ∧ ¬(f.Name = "new" ++ "Widget")) := by
  have h := claim_C5 wModel5 (StructInfo.mk "Widget" true [])
    (by simp [wModel5]) (by simp) (by rfl)
  exact h

/-- Claim C7: trimByScope with func yields exactly the (first) empty-named
synthetic group; with struct exactly the named groups in order; with all the
input unchanged. -/
theorem claim_C7 :
    (∀ (gs : List StructInfo) (g : StructInfo),
      gs.find? (fun x => x.Name == "") = some g → trimByScope "func" gs = [g]) ∧
    (∀ gs : List StructInfo,
      trimByScope "struct" gs = gs.filter (fun g => decide ¬(g.Name = ""))) ∧
    (∀ gs : List StructInfo, trimByScope "all" gs = gs) := by
  refine ⟨?_, ?_, ?_⟩
  · intro gs g h
    simp only [trimByScope]
    rw [firstNoName_find, h]
  · intro gs
    simp only [trimByScope]
    apply List.filter_congr
    intro g _
    cases hx : (g.Name == "") <;> simp_all
  · intro gs
    rfl

/-- witness for C7 at a singleton free group. -/
theorem claim_C7_witness :
    trimByScope "func" [({ Name := "", IsExported := false, Methods := [] } : StructInfo)] =
      [({ Name := "", IsExported := false, Methods := [] } : StructInfo)] :=
  claim_C7.1 _ _ rfl

/-- Claim C8: the memoized HasReturn is monotone (a call that returned true
leaves the node answering true immediately), and after the pruning pass every
surviving node's HasReturn value agrees with the honest predicate on the
current (pruned) tree. -/
theorem claim_C8 :
    (∀ b c2 : Branch, Branch.HasReturn b = (true, c2) → Branch.HasReturn c2 = (true, c2)) ∧
    (∀ bs : List Branch, honestList bs = true →
      ∀ c ∈ trimNoReturnChildren bs, ∀ n : Branch, SubBranch n c →
        hasReturnVal n = reachRet n) := by
  constructor
  · exact HasReturn_again
  · intro bs hbs c hc n hsub
    have hhl : honestList (trimNoReturnChildren bs) = true := (trimMaster.2 bs hbs).1
    have hcn : honest c = true := honestList_mem _ hhl c hc
    exact honest_val_reach n (honest_sub n c hsub hcn)

/-- witness for C8 at a single return branch. -/
theorem claim_C8_witness :
    Branch.HasReturn (Branch.mk BranchReturn 2 "return" [] true) =
      (true, Branch.mk BranchReturn 2 "return" [] true) ∧
    hasReturnVal (Branch.mk BranchReturn 2 "return" [] true) =
      reachRet (Branch.mk BranchReturn 2 "return" [] true) := by
  have hm : (Branch.mk BranchReturn 2 "return" [] true) ∈
      trimNoReturnChildren [Branch.mk BranchReturn 2 "return" [] true] := by
    rw [trimChildren_cons,
      if_pos (show hasReturnVal (Branch.mk BranchReturn 2 "return" [] true) = true from rfl)]
    rw [show (Branch.HasReturn (Branch.mk BranchReturn 2 "return" [] true)).2 =
        Branch.mk BranchReturn 2 "return" [] true from rfl]
    rw [trim_mk]
    simp [trimNoReturnChildren]
  exact ⟨claim_C8.1 (Branch.mk BranchReturn 2 "return" [] true)
      (Branch.mk BranchReturn 2 "return" [] true) rfl,
    claim_C8.2 [Branch.mk BranchReturn 2 "return" [] true] rfl _ hm _ (SubBranch.refl _)⟩

/-- Claim C9: extracted branch order equals source statement order (the
output is the in-order concatenation of the per-statement contributions), and
the reachability pruning keeps the surviving children in their original
relative order with their identities unchanged. -/
theorem claim_C9 :
    (∀ (src : List Char) (stmts : List GoStmt) (bs : List Branch),
      extractFromStmtList src stmts = some bs →
      ∃ parts : List (List Branch),
        List.Forall₂ (fun s ps => visitStmt src s = some ps) stmts parts ∧
        bs = parts.flatten) ∧
    (∀ l : List Branch, (trimNoReturnChildren l).map keyOf =
      (l.filter (fun c => hasReturnVal c)).map keyOf) :=
  ⟨extract_order, trimChildren_keys⟩

/-- witness for C9 on a one-statement list. -/
theorem claim_C9_witness :
    (∃ parts : List (List Branch),
      List.Forall₂ (fun s ps => visitStmt ([] : List Char) s = some ps) [GoStmt.otherS] parts ∧
      ([] : List Branch) = parts.flatten) ∧
    (trimNoReturnChildren [Branch.mk BranchReturn 1 "return" [] true]).map keyOf =
      ([Branch.mk BranchReturn 1 "return" [] true].filter (fun c => hasReturnVal c)).map keyOf := by
  refine ⟨claim_C9.1 [] [GoStmt.otherS] [] ?_, claim_C9.2 _⟩
  simp [extractFromStmtList, visitStmt]

/-- Claim C10: when no empty-named group is present, trimByScope with func
silently degrades to the identity instead of returning an empty list. -/
theorem claim_C10 : ∀ gs : List StructInfo, (∀ g ∈ gs, ¬(g.Name = "")) →
    trimByScope "func" gs = gs := by
  intro gs h
  simp only [trimByScope]
  rw [firstNoName_none gs h]

/-- witness for C10 at a named-only group list. -/
theorem claim_C10_witness :
    trimByScope "func" [({ Name := "T", IsExported := true, Methods := [] } : StructInfo)] =
      [({ Name := "T", IsExported := true, Methods := [] } : StructInfo)] :=
  claim_C10 _ (by simp)
